import Mathlib

/-!
Verification of the Palm-counting-AI detection pipeline specification.

The repository is a Tauri desktop application: the TypeScript UI layer
(`src/pages/Dashboard.tsx`, `src/pages/Settings.tsx`, `src/stores/*.ts`) is
present, while the Rust inference core described by the design document
(`src-tauri/src/yolo_onnx.rs`, `infer.rs`, `config.rs`) is referenced by the
documentation but not part of the visible sources.  Definitions taken from
TypeScript sources carry a comment naming the file; definitions for the absent
Rust core are marked `Modelled from the spec:` and follow the design document's
wording.  Numeric quantities use exact rationals.
-/

set_option maxHeartbeats 1000000

namespace PalmAI

/-- Modelled from the spec: axis-aligned bounding box in corner form
`(x_min, y_min, x_max, y_max)` (spec section 3, `Detection`), as decoded by the
Postprocessor of the absent `yolo_onnx.rs`. -/
structure Box where
  x1 : ℚ
  y1 : ℚ
  x2 : ℚ
  y2 : ℚ
deriving DecidableEq

/-- Modelled from the spec: intersection area of two axis-aligned rectangles,
clamped at zero when the rectangles do not overlap. -/
def interArea (a b : Box) : ℚ :=
  max 0 (min a.x2 b.x2 - max a.x1 b.x1) * max 0 (min a.y2 b.y2 - max a.y1 b.y1)

/-- Modelled from the spec: area `(x_max - x_min) * (y_max - y_min)` of a box. -/
def boxArea (a : Box) : ℚ :=
  (a.x2 - a.x1) * (a.y2 - a.y1)

/-- Modelled from the spec: `IoU = intersection area / union area` of two
axis-aligned rectangles (spec section 4.3).  Division by zero in `ℚ` yields 0,
which models the degenerate zero-area case. -/
def iou (a b : Box) : ℚ :=
  interArea a b / (boxArea a + boxArea b - interArea a b)

/-- Modelled from the spec: the scale/padding record of the letterbox resize
(spec section 4.2); produced by the Preprocessor of the absent Rust core. -/
structure LetterboxTf where
  scale : ℚ
  padLeft : ℚ
  padTop : ℚ
deriving DecidableEq

/-- Modelled from the spec: `scale = min (S / W) (S / H)` (uniform,
aspect-preserving); the resized image of size
`(round (W * scale), round (H * scale))` is centred on the `S x S` canvas,
recording `pad_left` and `pad_top`. -/
def letterboxOf (W H S : ℚ) : LetterboxTf :=
  let scale := min (S / W) (S / H)
  { scale := scale
    padLeft := (S - ((round (W * scale) : ℤ) : ℚ)) / 2
    padTop := (S - ((round (H * scale) : ℤ) : ℚ)) / 2 }

/-- Modelled from the spec: forward coordinate map of the letterbox resize,
`model_x = tile_x * scale + pad_left`. -/
def fwdX (tf : LetterboxTf) (x : ℚ) : ℚ := x * tf.scale + tf.padLeft

/-- Modelled from the spec: forward coordinate map of the letterbox resize,
`model_y = tile_y * scale + pad_top`. -/
def fwdY (tf : LetterboxTf) (y : ℚ) : ℚ := y * tf.scale + tf.padTop

/-- Modelled from the spec: recorded inverse transform
`tile_x = (model_x - pad_left) / scale` (spec section 4.2 step 5). -/
def invX (tf : LetterboxTf) (mx : ℚ) : ℚ := (mx - tf.padLeft) / tf.scale

/-- Modelled from the spec: recorded inverse transform
`tile_y = (model_y - pad_top) / scale` (spec section 4.2 step 5). -/
def invY (tf : LetterboxTf) (my : ℚ) : ℚ := (my - tf.padTop) / tf.scale

/-- Modelled from the spec: one raw output row, `[box parameters...,
per-class scores...]`, with box parameters in centre+size encoding
(spec section 4.3, `RawOutput`). -/
structure Row where
  cx : ℚ
  cy : ℚ
  w : ℚ
  h : ℚ
  scores : List ℚ
deriving DecidableEq

/-- Modelled from the spec: the maximum per-class score of a row
(spec section 4.3 step 1). -/
def maxScore (r : Row) : ℚ := r.scores.foldr max 0

/-- Modelled from the spec: index of the winning class (first index attaining
the maximum score). -/
def argmaxIdx (l : List ℚ) : ℕ := l.indexOf (l.foldr max 0)

/-- Modelled from the spec: a decoded candidate detection: input row index
(used for input-order tie-breaks), class id, confidence score and box in
tile-pixel coordinates. -/
structure Cand where
  idx : ℕ
  cls : ℕ
  score : ℚ
  box : Box
deriving DecidableEq

/-- Modelled from the spec: step 2 of the Postprocessor: convert centre+size
box parameters to corners in model-input space, then invert the Preprocessor's
transform to obtain tile-pixel coordinates. -/
def decodeRow (tf : LetterboxTf) (i : ℕ) (r : Row) : Cand :=
  { idx := i
    cls := argmaxIdx r.scores
    score := maxScore r
    box :=
      { x1 := invX tf (r.cx - r.w / 2)
        y1 := invY tf (r.cy - r.h / 2)
        x2 := invX tf (r.cx + r.w / 2)
        y2 := invY tf (r.cy + r.h / 2) } }

/-- Rows tagged with their input position, starting at `i`. -/
def tagFrom (i : ℕ) : List Row → List (ℕ × Row)
  | [] => []
  | r :: rest => (i, r) :: tagFrom (i + 1) rest

/-- Modelled from the spec: step 1 keep-test: the row's maximum per-class score
is at least the confidence threshold. -/
def scoreKeep (conf : ℚ) (tr : ℕ × Row) : Bool := decide (conf ≤ maxScore tr.2)

/-- Decode one tagged row. -/
def decodeT (tf : LetterboxTf) (tr : ℕ × Row) : Cand := decodeRow tf tr.1 tr.2

/-- Modelled from the spec: a box with zero area (degenerate decode) is dropped
before NMS; the kept boxes have positive width and height. -/
def areaPos (c : Cand) : Bool :=
  decide (0 < c.box.x2 - c.box.x1) && decide (0 < c.box.y2 - c.box.y1)

/-- Modelled from the spec: steps 1 and 2 of the Postprocessor: score
filtering, box decoding, and the zero-area drop, in input order. -/
def surviving (conf : ℚ) (tf : LetterboxTf) (raw : List Row) : List Cand :=
  (((tagFrom 0 raw).filter (scoreKeep conf)).map (decodeT tf)).filter areaPos

/-- Modelled from the spec: the detection ordering: descending confidence
score, ties broken by input order (spec sections 4.3 step 4 and 9). -/
def candLE (a b : Cand) : Prop :=
  b.score < a.score ∨ (b.score = a.score ∧ a.idx ≤ b.idx)

instance : DecidableRel candLE := fun a b => by
  unfold candLE
  infer_instance

instance : IsTotal Cand candLE := by
  constructor
  intro a b
  unfold candLE
  rcases lt_trichotomy a.score b.score with h | h | h
  · exact Or.inr (Or.inl h)
  · rcases Nat.le_total a.idx b.idx with hi | hi
    · exact Or.inl (Or.inr ⟨h.symm, hi⟩)
    · exact Or.inr (Or.inr ⟨h, hi⟩)
  · exact Or.inl (Or.inl h)

instance : IsTrans Cand candLE := by
  constructor
  intro a b c hab hbc
  unfold candLE at hab hbc ⊢
  rcases hab with h1 | h1
  · rcases hbc with h2 | h2
    · exact Or.inl (lt_trans h2 h1)
    · exact Or.inl (h2.1 ▸ h1)
  · rcases hbc with h2 | h2
    · exact Or.inl (h1.1 ▸ h2)
    · exact Or.inr ⟨h2.1.trans h1.1, le_trans h1.2 h2.2⟩

/-- Score-threshold test on decoded candidates. -/
def scoreGE (t : ℚ) (c : Cand) : Bool := decide (t ≤ c.score)

/-- Modelled from the spec: suppression test: the IoU of candidate `c` with the
previously kept box `k` exceeds the IoU threshold. -/
def overlapB (thr : ℚ) (c k : Cand) : Bool := decide (thr < iou k.box c.box)

/-- Modelled from the spec: greedy NMS iteration (spec section 4.3 step 3):
iterate over the sorted candidates, keeping a box unless its IoU with some
previously kept box exceeds the IoU threshold.  `kept` holds the boxes kept so
far. -/
def nmsAcc (thr : ℚ) : List Cand → List Cand → List Cand
  | _, [] => []
  | kept, c :: rest =>
    if kept.any (overlapB thr c) then nmsAcc thr kept rest
    else c :: nmsAcc thr (c :: kept) rest

/-- Kept-state of the greedy NMS iteration after consuming a list. -/
def keptAfter (thr : ℚ) : List Cand → List Cand → List Cand
  | kept, [] => kept
  | kept, c :: rest =>
    if kept.any (overlapB thr c) then keptAfter thr kept rest
    else keptAfter thr (c :: kept) rest

/-- Membership test for class `cl`. -/
def isCls (cl : ℕ) (c : Cand) : Bool := decide (c.cls = cl)

/-- Modelled from the spec: per-class NMS (spec section 4.3 step 3): sort the
surviving boxes of one class by descending score (input-order tie-break) and
run the greedy keep loop on them. -/
def nmsClass (thr : ℚ) (cl : ℕ) (l : List Cand) : List Cand :=
  nmsAcc thr [] (List.insertionSort candLE (l.filter (isCls cl)))

/-- Modelled from the spec: NMS applied per class independently, for each class
id of the model (the class count is fixed at load time from the artifact's
declared output shape). -/
def nmsAll (numClasses : ℕ) (thr : ℚ) (l : List Cand) : List Cand :=
  (List.range numClasses).flatMap (fun cl => nmsClass thr cl l)

/-- Modelled from the spec: the full Postprocessor (spec section 4.3): score
filtering, box decoding, per-class NMS, then the global cap: sort all kept
detections by descending score (input-order tie-break) and keep the `maxDet`
best. -/
def postprocess (numClasses : ℕ) (tf : LetterboxTf) (raw : List Row)
    (conf iouThr : ℚ) (maxDet : ℕ) : List Cand :=
  (List.insertionSort candLE (nmsAll numClasses iouThr (surviving conf tf raw))).take maxDet

/-- Modelled from the spec: format tag of a model artifact (spec section 3,
`ModelArtifact`). -/
inductive ArtifactFormat
  | nativeTensor
  | legacy
deriving DecidableEq

/-- Modelled from the spec: a model artifact: storage path, format tag, and the
optional sibling-artifact path (the converted counterpart, if any). -/
structure ModelArtifact where
  path : String
  format : ArtifactFormat
  sibling : Option String
deriving DecidableEq

/-- Modelled from the spec: the dispatch decision (spec section 3,
`DispatchDecision`): run natively on the given artifact path, or delegate the
given legacy path to the External Executor Bridge. -/
inductive DispatchDecision
  | nativeReady (path : String)
  | legacyOnly (path : String)
deriving DecidableEq

/-- Modelled from the spec: the per-artifact conversion cache entry of the
Format Dispatcher (spec section 9): the cached sibling path, plus a counter of
conversion invocations (the collaborator stub of spec section 8). -/
structure ConvCache where
  sibling : Option String
  convCount : ℕ
deriving DecidableEq

/-- Modelled from the spec: one atomic get-or-convert dispatch step of the
Format Dispatcher and Conversion Orchestrator (spec sections 4.4, 4.5 and 9),
which are part of the absent Rust core.  A native-tensor artifact dispatches
natively at once; a legacy artifact with a cached sibling reuses it; otherwise
conversion is invoked once: on success the sibling path is recorded and the
native path used, on failure the request falls back to `legacyOnly`.
`convertOk` is the outcome of the conversion collaborator and `convPath` the
native path it would produce. -/
def dispatch (a : ModelArtifact) (convertOk : Bool) (convPath : String)
    (s : ConvCache) : DispatchDecision × ConvCache :=
  match a.format with
  | ArtifactFormat.nativeTensor => (DispatchDecision.nativeReady a.path, s)
  | ArtifactFormat.legacy =>
    match s.sibling with
    | some sib => (DispatchDecision.nativeReady sib, s)
    | none =>
      if convertOk then
        (DispatchDecision.nativeReady convPath,
          { sibling := some convPath, convCount := s.convCount + 1 })
      else
        (DispatchDecision.legacyOnly a.path,
          { sibling := none, convCount := s.convCount + 1 })

/-- Modelled from the spec: the cache entry seen by the first dispatch against
an artifact: the registry's sibling path, and no conversion performed yet. -/
def initCache (a : ModelArtifact) : ConvCache :=
  { sibling := a.sibling, convCount := 0 }

/-- Outcome of the Dashboard `run` handler (`src/pages/Dashboard.tsx`): either
a log message and an early return, or the invocation of
`run_processing_cmd` with the checked files and the active model name. -/
inductive RunOutcome
  | refused (msg : String)
  | dispatched (files : List String) (modelName : String)
deriving DecidableEq

/-- From `src/pages/Dashboard.tsx` (`run`, lines 285-321): the guard sequence
of the run handler.  `activeName` is the active model's name (`none` when no
model matches the selection), `pack` is the result of
`check_ai_pack_installed` (`none` models the call throwing), and `files` the
checked TIFF paths. -/
def runGate (activeName : Option String) (pack : Option Bool)
    (files : List String) : RunOutcome :=
  if activeName.getD ("") = ("") then
    RunOutcome.refused ("Select an active YOLO model first.")
  else
    match pack with
    | none =>
      RunOutcome.refused
        ("Tidak dapat mengecek status AI pack. Pastikan AI pack sudah terpasang sebelum menjalankan processing.")
    | some false =>
      RunOutcome.refused
        ("AI pack belum terpasang. Download AI pack terlebih dahulu dari banner di atas sebelum menjalankan processing.")
    | some true =>
      if files.isEmpty then
        RunOutcome.refused ("Select at least one TIFF (checkbox) to process.")
      else
        RunOutcome.dispatched files (activeName.getD (""))

/-- Whether the run handler reached the `run_processing_cmd` invocation. -/
def isDispatched : RunOutcome → Bool
  | RunOutcome.refused _ => false
  | RunOutcome.dispatched _ _ => true

/-- From `src/pages/Settings.tsx`: the persisted configuration record; every
field is optional (`none` when the configuration source supplies no value). -/
structure AppConfig where
  imgsz : Option String := none
  iou : Option String := none
  conf : Option String := none
  device : Option String := none
  max_det : Option String := none
  line_width : Option String := none
deriving DecidableEq

/-- From `src/pages/Settings.tsx` line 74: `config.imgsz ?? "12800"`. -/
def fallbackImgsz (c : AppConfig) : String := c.imgsz.getD ("12800")

/-- From `src/pages/Settings.tsx` line 82: `config.conf ?? "0.2"`. -/
def fallbackConf (c : AppConfig) : String := c.conf.getD ("0.2")

/-- From `src/pages/Settings.tsx` line 90: `config.iou ?? "0.2"`. -/
def fallbackIou (c : AppConfig) : String := c.iou.getD ("0.2")

/-- From `src/pages/Settings.tsx` line 98: `config.max_det ?? "10000"`. -/
def fallbackMaxDet (c : AppConfig) : String := c.max_det.getD ("10000")

/-- From `src/pages/Settings.tsx` line 114: `config.device ?? "auto"`. -/
def fallbackDevice (c : AppConfig) : String := c.device.getD ("auto")

/-- From `src/pages/Dashboard.tsx` line 64: path separators are `/` and `\`. -/
def isSep (ch : Char) : Bool := ch == '/' || ch == '\\'

/-- From `src/pages/Dashboard.tsx` line 64: `p.split(/[/\\]/).pop() ?? p`, the
characters after the last path separator. -/
def baseName (p : List Char) : List Char :=
  (p.reverse.takeWhile (fun ch => !(isSep ch))).reverse

/-- From `src/pages/Dashboard.tsx` line 85: `p.replace(/[/\\][^/\\]*$/, "")`:
everything before the last separator; the path itself when it has none. -/
def dirOf (p : List Char) : List Char :=
  match p.reverse.dropWhile (fun ch => !(isSep ch)) with
  | [] => p
  | _ :: t => t.reverse

/-- Lower-cased copy of a character list, for case-insensitive comparisons. -/
def lowerOf (l : List Char) : List Char := l.map Char.toLower

/-- Case-insensitive suffix test. -/
def endsWithCI (suf p : List Char) : Bool := (lowerOf suf).isSuffixOf (lowerOf p)

/-- The `.tif` extension. -/
def extTif : List Char := ['.', 't', 'i', 'f']

/-- The `.tiff` extension. -/
def extTiff : List Char := ['.', 't', 'i', 'f', 'f']

/-- The `.tfw` extension. -/
def extTfw : List Char := ['.', 't', 'f', 'w']

/-- From `src/pages/Dashboard.tsx` lines 63-66 (`stem`): strip one trailing
`.tif`, `.tiff` or `.tfw` extension (case-insensitive) off the base name. -/
def stripExt (b : List Char) : List Char :=
  if endsWithCI extTiff b then b.take (b.length - 5)
  else if endsWithCI extTif b then b.take (b.length - 4)
  else if endsWithCI extTfw b then b.take (b.length - 4)
  else b

/-- From `src/pages/Dashboard.tsx` lines 63-66 (`stem`). -/
def stem (p : List Char) : List Char := stripExt (baseName p)

/-- From `src/pages/Dashboard.tsx` line 90: `/\.(tif|tiff)$/i.test(p)`. -/
def isTif (p : List Char) : Bool := endsWithCI extTif p || endsWithCI extTiff p

/-- From `src/pages/Dashboard.tsx` line 91: `/\.tfw$/i.test(p)`. -/
def isTfw (p : List Char) : Bool := endsWithCI extTfw p

/-- From `src/pages/Dashboard.tsx` line 87: grouping key `dir + "\0" + base`,
modelled as the pair of the two joined components. -/
def keyOf (p : List Char) : List Char × List Char := (dirOf p, stem p)

/-- Group entry under construction: the `.tif`/`.tiff` member and the `.tfw`
member recorded so far (`src/pages/Dashboard.tsx` line 83). -/
structure GEntry where
  tif : Option (List Char) := none
  tfw : Option (List Char) := none
deriving DecidableEq

/-- From `src/pages/Dashboard.tsx` lines 90-91: record path `p` in entry `e`:
a `.tif`/`.tiff` path sets the tif member, else a `.tfw` path sets the tfw
member, else the entry is untouched. -/
def applyPath (p : List Char) (e : GEntry) : GEntry :=
  if isTif p then { e with tif := some p }
  else if isTfw p then { e with tfw := some p }
  else e

/-- From `src/pages/Dashboard.tsx` lines 84-92: insert one path into the
insertion-ordered association list of groups (the `Map` of the source). -/
def insertPath : List ((List Char × List Char) × GEntry) → List Char →
    List ((List Char × List Char) × GEntry)
  | [], p => [(keyOf p, applyPath p {})]
  | (k, e) :: t, p =>
    if k = keyOf p then (k, applyPath p e) :: t else (k, e) :: insertPath t p

/-- The grouping map after all paths are inserted. -/
def buildGroups (paths : List (List Char)) :
    List ((List Char × List Char) × GEntry) :=
  paths.foldl insertPath []

/-- Invariant of the grouping fold: every member recorded in an entry comes
from the path list, has the matching extension, and has the entry's key. -/
def entryOK (paths : List (List Char)) (kv : (List Char × List Char) × GEntry) : Prop :=
  (∀ p, kv.2.tif = some p → p ∈ paths ∧ isTif p = true ∧ keyOf p = kv.1) ∧
  (∀ p, kv.2.tfw = some p → p ∈ paths ∧ isTfw p = true ∧ keyOf p = kv.1)

/-- From `src/pages/Dashboard.tsx` lines 57-61 (`TiffTfwGroup`). -/
structure TiffTfwGroup where
  name : List Char
  tifPath : List Char
  tfwPath : List Char
deriving DecidableEq

/-- From `src/pages/Dashboard.tsx` lines 82-99 (`parseTiffTfwPairs`): keep the
groups holding both a `.tif`/`.tiff` and a `.tfw` member, named by the stem of
the tif path. -/
def parseTiffTfwPairs (paths : List (List Char)) : List TiffTfwGroup :=
  (buildGroups paths).filterMap (fun kv =>
    match kv.2.tif, kv.2.tfw with
    | some tif, some tfw =>
      some { name := stem tif, tifPath := tif, tfwPath := tfw }
    | _, _ => none)

/-- From `src/stores/theme.ts` line 4: the theme values. -/
inductive Theme
  | light
  | dark
  | system
deriving DecidableEq

/-- Result of a `localStorage.getItem` call: a value (possibly `null`,
modelled as `none`), or the access throwing. -/
inductive StorageRead
  | ok (v : Option String)
  | thrown
deriving DecidableEq

/-- From `src/stores/theme.ts` lines 6-12 (`load`): return the stored value
when it is exactly "light", "dark" or "system"; return "system" in every other
case, also when storage access throws (the surrounding try/catch, which keeps
the function total). -/
def loadTheme : StorageRead → Theme
  | StorageRead.thrown => Theme.system
  | StorageRead.ok none => Theme.system
  | StorageRead.ok (some s) =>
    if s = ("light") then Theme.light
    else if s = ("dark") then Theme.dark
    else if s = ("system") then Theme.system
    else Theme.system

/-- Identity-like letterbox transform for concrete checks. -/
def tfId : LetterboxTf := { scale := 1, padLeft := 0, padTop := 0 }

/-- Concrete raw row for checks: a single-class row with score 9/10. -/
def rowA : Row := { cx := 12, cy := 12, w := 4, h := 4, scores := [(9 : ℚ) / 10] }

/-- Concrete raw row for checks: a single-class row with score 8/10, far from
`rowA`. -/
def rowB : Row := { cx := 100, cy := 100, w := 4, h := 4, scores := [(8 : ℚ) / 10] }

/-- Concrete raw output for checks. -/
def rawEx : List Row := [rowA, rowB]

/-- Concrete legacy artifact without a sibling, for checks. -/
def legacyArt : ModelArtifact :=
  { path := ("model.pt"), format := ArtifactFormat.legacy, sibling := none }

/-- Concrete tif path for checks. -/
def pathTifEx : List Char := String.toList ("C:/maps/UPE.tif")

/-- Concrete tfw path for checks. -/
def pathTfwEx : List Char := String.toList ("C:/maps/UPE.tfw")

/-- Concrete path selection for checks. -/
def pathsEx : List (List Char) := [pathTifEx, pathTfwEx]

/-! Theorems -/

/-- An earlier element of the detection order has the larger score. -/
theorem candLE_score {a b : Cand} (h : candLE a b) : b.score ≤ a.score := by
  rcases h with h | h
  · exact h.le
  · exact h.1.le

/-- The maximum per-class score of a row is nonnegative. -/
theorem maxScore_nonneg (r : Row) : 0 ≤ maxScore r := by
  unfold maxScore
  induction r.scores with
  | nil => exact le_refl 0
  | cons s rest ih => exact le_trans ih (le_max_right s _)

/-- Tagged rows come from the row list. -/
theorem mem_tagFrom :
    ∀ (rows : List Row) (i : ℕ) (tr : ℕ × Row), tr ∈ tagFrom i rows →
      tr.2 ∈ rows := by
  intro rows
  induction rows with
  | nil => intro i tr h; cases h
  | cons r rest ih =>
    intro i tr h
    rcases List.mem_cons.mp h with h | h
    · subst h
      exact List.mem_cons_self _ _
    · exact List.mem_cons_of_mem _ (ih (i + 1) tr h)

/-- The greedy NMS output is a sublist of its input. -/
theorem nmsAcc_sublist (thr : ℚ) :
    ∀ (l kept : List Cand), (nmsAcc thr kept l).Sublist l := by
  intro l
  induction l with
  | nil => intro kept; simp [nmsAcc]
  | cons c rest ih =>
    intro kept
    rw [nmsAcc]
    by_cases h : kept.any (overlapB thr c) = true
    · rw [if_pos h]
      exact (ih kept).trans (List.sublist_cons_self c rest)
    · rw [if_neg h]
      exact List.Sublist.cons₂ c (ih (c :: kept))

/-- Every box output by the greedy NMS loop has IoU at most the threshold with
every box of the initial kept state. -/
theorem nmsAcc_le_kept (thr : ℚ) :
    ∀ (l kept : List Cand) (x : Cand), x ∈ nmsAcc thr kept l →
      ∀ k ∈ kept, iou k.box x.box ≤ thr := by
  intro l
  induction l with
  | nil => intro kept x hx; cases hx
  | cons c rest ih =>
    intro kept x hx k hk
    rw [nmsAcc] at hx
    by_cases h : kept.any (overlapB thr c) = true
    · rw [if_pos h] at hx
      exact ih kept x hx k hk
    · rw [if_neg h] at hx
      rcases List.mem_cons.mp hx with hx | hx
      · subst hx
        have hnone := List.any_eq_true.not.mp h
        push_neg at hnone
        have := hnone k hk
        unfold overlapB at this
        simpa using this
      · exact ih (c :: kept) x hx k (List.mem_cons_of_mem _ hk)

/-- The greedy NMS output is pairwise separated: any two of its boxes have IoU
at most the threshold. -/
theorem nmsAcc_pairwise (thr : ℚ) :
    ∀ (l kept : List Cand),
      List.Pairwise (fun a b => iou a.box b.box ≤ thr) (nmsAcc thr kept l) := by
  intro l
  induction l with
  | nil => intro kept; simp [nmsAcc]
  | cons c rest ih =>
    intro kept
    rw [nmsAcc]
    by_cases h : kept.any (overlapB thr c) = true
    · rw [if_pos h]
      exact ih kept
    · rw [if_neg h]
      refine List.Pairwise.cons ?_ (ih (c :: kept))
      intro y hy
      exact nmsAcc_le_kept thr rest (c :: kept) y hy c (List.mem_cons_self _ _)

/-- The greedy NMS loop splits over an append, the second part starting from
the kept state reached after the first. -/
theorem nmsAcc_append (thr : ℚ) :
    ∀ (l1 l2 kept : List Cand),
      nmsAcc thr kept (l1 ++ l2) =
        nmsAcc thr kept l1 ++ nmsAcc thr (keptAfter thr kept l1) l2 := by
  intro l1
  induction l1 with
  | nil => intro l2 kept; simp [nmsAcc, keptAfter]
  | cons c rest ih =>
    intro l2 kept
    rw [List.cons_append, nmsAcc, nmsAcc, keptAfter]
    by_cases h : kept.any (overlapB thr c) = true
    · rw [if_pos h, if_pos h, if_pos h]
      exact ih l2 kept
    · rw [if_neg h, if_neg h, if_neg h]
      rw [List.cons_append, ih l2 (c :: kept)]

/-- On a list sorted by the detection order, the score-threshold filter is an
initial segment, and everything dropped fails the threshold. -/
theorem sorted_filter_takeWhile (t : ℚ) :
    ∀ {l : List Cand}, List.Sorted candLE l →
      l.filter (scoreGE t) = l.takeWhile (scoreGE t) ∧
      ∀ c ∈ l.dropWhile (scoreGE t), scoreGE t c = false := by
  intro l
  induction l with
  | nil => intro _; exact ⟨rfl, fun c hc => by cases hc⟩
  | cons h tl ih =>
    intro hs
    have hs' : List.Sorted candLE tl := hs.of_cons
    by_cases hh : scoreGE t h = true
    · rw [List.filter_cons_of_pos hh, List.takeWhile_cons, if_pos hh,
        List.dropWhile_cons, if_pos hh]
      exact ⟨by rw [(ih hs').1], (ih hs').2⟩
    · have hall : ∀ c ∈ h :: tl, scoreGE t c = false := by
        intro c hc
        rcases List.mem_cons.mp hc with hc | hc
        · subst hc; exact Bool.eq_false_iff.mpr hh
        · have hlc : c.score ≤ h.score :=
            candLE_score (List.rel_of_sorted_cons hs c hc)
          have hht : ¬ t ≤ h.score := by
            intro hcon
            exact hh (by unfold scoreGE; simpa using hcon)
          unfold scoreGE
          simp only [decide_eq_false_iff_not]
          intro hcon
          exact hht (hcon.trans hlc)
      rw [List.takeWhile_cons, if_neg hh, List.dropWhile_cons, if_neg hh]
      exact ⟨List.filter_eq_nil_iff.mpr (by
        intro a ha
        simp [hall a ha]), fun c hc => hall c hc⟩

/-- Intersection area is symmetric in its two boxes. -/
theorem interArea_comm (a b : Box) : interArea a b = interArea b a := by
  unfold interArea
  rw [min_comm a.x2 b.x2, max_comm a.x1 b.x1, min_comm a.y2 b.y2,
    max_comm a.y1 b.y1]

/-- IoU is symmetric in its two boxes. -/
theorem iou_comm (a b : Box) : iou a b = iou b a := by
  unfold iou
  rw [interArea_comm, add_comm (boxArea a) (boxArea b)]

/-- A box of positive width and height has IoU 1 with itself. -/
theorem iou_self_of_pos {a : Box} (h1 : a.x1 < a.x2) (h2 : a.y1 < a.y2) :
    iou a a = 1 := by
  have hw : (0 : ℚ) < a.x2 - a.x1 := by linarith
  have hh : (0 : ℚ) < a.y2 - a.y1 := by linarith
  unfold iou interArea boxArea
  rw [min_self, min_self, max_self, max_self, max_eq_right hw.le,
    max_eq_right hh.le]
  have heq : (a.x2 - a.x1) * (a.y2 - a.y1) + (a.x2 - a.x1) * (a.y2 - a.y1) -
      (a.x2 - a.x1) * (a.y2 - a.y1) = (a.x2 - a.x1) * (a.y2 - a.y1) := by ring
  rw [heq]
  exact div_self (mul_pos hw hh).ne'

/-- C8 (counterexample): for the zero-area box `(0,0,0,0)` the IoU with itself
is 0/0 = 0, not 1, so self-identity fails in the degenerate zero-area case. -/
theorem iou_degenerate_self_ne_one :
    iou { x1 := 0, y1 := 0, x2 := 0, y2 := 0 }
        { x1 := 0, y1 := 0, x2 := 0, y2 := 0 } ≠ 1 :=
  of_decide_eq_true (by with_unfolding_all rfl)

/-- C8 (amended): every axis-aligned box of positive area has IoU 1 with
itself, and IoU is symmetric for all boxes, degenerate ones included. -/
theorem iou_self_identity_and_symm :
    (∀ a : Box, a.x1 < a.x2 → a.y1 < a.y2 → iou a a = 1) ∧
    (∀ a b : Box, iou a b = iou b a) :=
  ⟨fun _ h1 h2 => iou_self_of_pos h1 h2, iou_comm⟩

/-- C8 (witness): the amended theorem applied to concrete boxes. -/
theorem iou_self_identity_and_symm_wit :
    iou { x1 := 0, y1 := 0, x2 := 4, y2 := 4 }
        { x1 := 0, y1 := 0, x2 := 4, y2 := 4 } = 1 ∧
    iou { x1 := 0, y1 := 0, x2 := 4, y2 := 4 }
        { x1 := 1, y1 := 1, x2 := 5, y2 := 5 } =
      iou { x1 := 1, y1 := 1, x2 := 5, y2 := 5 }
        { x1 := 0, y1 := 0, x2 := 4, y2 := 4 } :=
  ⟨iou_self_identity_and_symm.1 { x1 := 0, y1 := 0, x2 := 4, y2 := 4 }
      (by norm_num) (by norm_num),
   iou_self_identity_and_symm.2 { x1 := 0, y1 := 0, x2 := 4, y2 := 4 }
     { x1 := 1, y1 := 1, x2 := 5, y2 := 5 }⟩

/-- C4 (counterexample): with target size S = 0 the computed scale is 0 and
the recorded inverse transform maps everything to 0, so the forward
coordinates of tile coordinate 1 are not recovered. -/
theorem letterbox_zero_target_no_round_trip :
    invX (letterboxOf 1 1 0) (fwdX (letterboxOf 1 1 0) 1) ≠ 1 :=
  of_decide_eq_true (by with_unfolding_all rfl)

/-- C4 (amended): for every image with positive width and height and every
positive target size, the Preprocessor computes `scale = min (S/W) (S/H)` and
the recorded inverse transform exactly recovers the tile coordinates of the
forward-mapped point (round-trip law; exact, hence within any rounding
tolerance). -/
theorem letterbox_round_trip (W H S x y : ℚ) (hW : 0 < W) (hH : 0 < H)
    (hS : 0 < S) :
    (letterboxOf W H S).scale = min (S / W) (S / H) ∧
    invX (letterboxOf W H S) (fwdX (letterboxOf W H S) x) = x ∧
    invY (letterboxOf W H S) (fwdY (letterboxOf W H S) y) = y := by
  have hscale : (letterboxOf W H S).scale ≠ 0 := by
    have hpos : 0 < min (S / W) (S / H) :=
      lt_min (div_pos hS hW) (div_pos hS hH)
    simpa [letterboxOf] using hpos.ne'
  refine ⟨rfl, ?_, ?_⟩
  · unfold invX fwdX
    rw [add_sub_cancel_right]
    exact mul_div_cancel_right₀ _ hscale
  · unfold invY fwdY
    rw [add_sub_cancel_right]
    exact mul_div_cancel_right₀ _ hscale

/-- C4 (witness): the round-trip law at the reference scenario `4000x3000`,
`S = 1280`, tile coordinate 100. -/
theorem letterbox_round_trip_wit :
    invX (letterboxOf 4000 3000 1280) (fwdX (letterboxOf 4000 3000 1280) 100) =
      100 :=
  (letterbox_round_trip 4000 3000 1280 100 100 (by norm_num) (by norm_num)
    (by norm_num)).2.1

/-- C6 (counterexample): with a model selected and a file checked but the
AI-pack runtime predicate false, the run handler refuses the request; nothing
is dispatched to the external executor. -/
theorem runGate_pack_missing_not_dispatched :
    isDispatched (runGate (some ("m")) (some false) [("a.tif")]) = false := by
  decide

/-- C6 (amended): for every nonempty model name and file selection, when the
runtime-available predicate (`check_ai_pack_installed`) is false, the run
handler refuses with the install-the-pack message and dispatches nothing, so
no conversion or native load is attempted. -/
theorem runGate_pack_missing_refuses (name : String) (files : List String)
    (hn : name ≠ ("")) :
    runGate (some name) (some false) files =
      RunOutcome.refused
        ("AI pack belum terpasang. Download AI pack terlebih dahulu dari banner di atas sebelum menjalankan processing.") ∧
    isDispatched (runGate (some name) (some false) files) = false := by
  unfold runGate
  rw [Option.getD_some, if_neg hn]
  exact ⟨rfl, rfl⟩

/-- C6 (witness): the amended theorem at a concrete model name and file. -/
theorem runGate_pack_missing_refuses_wit :
    runGate (some ("m")) (some false) [("a.tif")] =
      RunOutcome.refused
        ("AI pack belum terpasang. Download AI pack terlebih dahulu dari banner di atas sebelum menjalankan processing.") :=
  (runGate_pack_missing_refuses ("m") [("a.tif")] (by decide)).1

/-- C7 (counterexample): with the configuration entirely absent, the
image-size fallback constant of the settings page is "12800", not the "1280"
of the reference scenario. -/
theorem fallbackImgsz_not_1280 :
    fallbackImgsz {} = ("12800") ∧ ("12800" : String) ≠ ("1280") :=
  ⟨rfl, by decide⟩

/-- C7 (amended): when the configuration source supplies no value for a
parameter, the fallback constants are confidence "0.2", IoU "0.2", max
detections "10000", device "auto", and image size "12800". -/
theorem config_fallback_constants (c : AppConfig) (h1 : c.conf = none)
    (h2 : c.iou = none) (h3 : c.max_det = none) (h4 : c.device = none)
    (h5 : c.imgsz = none) :
    fallbackConf c = ("0.2") ∧ fallbackIou c = ("0.2") ∧
    fallbackMaxDet c = ("10000") ∧ fallbackDevice c = ("auto") ∧
    fallbackImgsz c = ("12800") := by
  unfold fallbackConf fallbackIou fallbackMaxDet fallbackDevice fallbackImgsz
  rw [h1, h2, h3, h4, h5]
  exact ⟨rfl, rfl, rfl, rfl, rfl⟩

/-- C7 (witness): the amended theorem at the empty configuration. -/
theorem config_fallback_constants_wit :
    fallbackConf {} = ("0.2") ∧ fallbackIou {} = ("0.2") ∧
    fallbackMaxDet {} = ("10000") ∧ fallbackDevice {} = ("auto") ∧
    fallbackImgsz {} = ("12800") :=
  config_fallback_constants {} rfl rfl rfl rfl rfl

/-- C10: the theme loader returns the stored value exactly for "light", "dark"
and "system", and returns "system" in every other case, including a null value
and a throwing storage access (the embedding is a total function: the source's
try/catch lets no exception escape). -/
theorem loadTheme_spec :
    loadTheme (StorageRead.ok (some ("light"))) = Theme.light ∧
    loadTheme (StorageRead.ok (some ("dark"))) = Theme.dark ∧
    loadTheme (StorageRead.ok (some ("system"))) = Theme.system ∧
    loadTheme (StorageRead.ok none) = Theme.system ∧
    loadTheme StorageRead.thrown = Theme.system ∧
    (∀ s : String, s ≠ ("light") → s ≠ ("dark") → s ≠ ("system") →
      loadTheme (StorageRead.ok (some s)) = Theme.system) := by
  refine ⟨rfl, rfl, rfl, rfl, rfl, ?_⟩
  intro s hl hd hs
  simp only [loadTheme]
  rw [if_neg hl, if_neg hd, if_neg hs]

/-- C10 (witness): the catch-all branch of the theme loader at a concrete
unexpected stored value. -/
theorem loadTheme_spec_wit :
    loadTheme (StorageRead.ok (some ("blue"))) = Theme.system :=
  loadTheme_spec.2.2.2.2.2 ("blue") (by decide) (by decide) (by decide)

/-- C5: dispatch is idempotent per artifact.  Starting from the registry
state, two dispatches invoke conversion at most once whenever the artifact is
native, already has a sibling, or the first conversion succeeds (a failed
attempt is non-fatal and falls back to `legacyOnly`, spec section 4.5); a
cache entry holding a sibling is never left: the decision stays `nativeReady`
and the cache (hence the conversion counter) is untouched; and after a
successful first conversion the second dispatch reuses the cached sibling path
with no further state change.  Conversion steps are the atomic get-or-convert
operation of spec section 9, so concurrent dispatches interleave as sequential
compositions of these steps. -/
theorem dispatch_idempotent (a : ModelArtifact) (ok1 ok2 : Bool)
    (p1 p2 : String) :
    ((a.format = ArtifactFormat.nativeTensor ∨ a.sibling ≠ none ∨ ok1 = true) →
      (dispatch a ok2 p2 (dispatch a ok1 p1 (initCache a)).2).2.convCount ≤ 1) ∧
    (∀ (s : ConvCache) (sib : String) (ok : Bool) (p : String),
      s.sibling = some sib →
      (dispatch a ok p s).2 = s ∧
      ∃ q, (dispatch a ok p s).1 = DispatchDecision.nativeReady q) ∧
    (a.format = ArtifactFormat.legacy → a.sibling = none → ok1 = true →
      dispatch a ok2 p2 (dispatch a ok1 p1 (initCache a)).2 =
        (DispatchDecision.nativeReady p1,
          (dispatch a ok1 p1 (initCache a)).2)) := by
  obtain ⟨pa, fa, sa⟩ := a
  refine ⟨?_, ?_, ?_⟩
  · intro h
    cases fa with
    | nativeTensor => simp [dispatch, initCache]
    | legacy =>
      cases sa with
      | some sib => simp [dispatch, initCache]
      | none =>
        rcases h with h | h | h
        · cases h
        · exact absurd rfl h
        · subst h
          simp [dispatch, initCache]
  · intro s sib ok p hs
    cases fa with
    | nativeTensor => exact ⟨rfl, pa, rfl⟩
    | legacy =>
      obtain ⟨ssib, scount⟩ := s
      cases hs
      exact ⟨rfl, sib, rfl⟩
  · intro hf hsib hok
    subst hf
    subst hsib
    subst hok
    rfl

/-- C5 (witness): two dispatches against the concrete sibling-less legacy
artifact, the first conversion succeeding, perform at most one conversion. -/
theorem dispatch_idempotent_wit :
    (dispatch legacyArt false ("other.onnx")
        (dispatch legacyArt true ("model.onnx")
          (initCache legacyArt)).2).2.convCount ≤ 1 :=
  (dispatch_idempotent legacyArt true false ("model.onnx") ("other.onnx")).1
    (Or.inr (Or.inr rfl))

/-- Recording a path of matching key in a sound entry keeps the entry sound. -/
theorem entryOK_applyPath {paths : List (List Char)} {p : List Char}
    (hp : p ∈ paths) {k : List Char × List Char} {e : GEntry}
    (he : entryOK paths (k, e)) (hk : keyOf p = k) :
    entryOK paths (k, applyPath p e) := by
  unfold applyPath
  by_cases h1 : isTif p = true
  · rw [if_pos h1]
    refine ⟨?_, he.2⟩
    intro q hq
    have hpq : p = q := by simpa using hq
    subst hpq
    exact ⟨hp, h1, hk⟩
  · rw [if_neg h1]
    by_cases h2 : isTfw p = true
    · rw [if_pos h2]
      refine ⟨he.1, ?_⟩
      intro q hq
      have hpq : p = q := by simpa using hq
      subst hpq
      exact ⟨hp, h2, hk⟩
    · rw [if_neg h2]
      exact he

/-- Inserting a path from the path list preserves soundness of all entries. -/
theorem entryOK_insertPath {paths : List (List Char)} {p : List Char}
    (hp : p ∈ paths) :
    ∀ gs : List ((List Char × List Char) × GEntry),
      (∀ kv ∈ gs, entryOK paths kv) →
      ∀ kv ∈ insertPath gs p, entryOK paths kv := by
  intro gs
  induction gs with
  | nil =>
    intro _ kv hkv
    simp only [insertPath, List.mem_singleton] at hkv
    subst hkv
    refine entryOK_applyPath hp ?_ rfl
    unfold entryOK
    exact ⟨fun q hq => Option.noConfusion hq, fun q hq => Option.noConfusion hq⟩
  | cons head t ih =>
    intro hgs kv hkv
    obtain ⟨k, e⟩ := head
    simp only [insertPath] at hkv
    by_cases hk : k = keyOf p
    · rw [if_pos hk] at hkv
      rcases List.mem_cons.mp hkv with h | h
      · subst h
        exact entryOK_applyPath hp (hgs (k, e) (List.mem_cons_self _ _)) hk.symm
      · exact hgs _ (List.mem_cons_of_mem _ h)
    · rw [if_neg hk] at hkv
      rcases List.mem_cons.mp hkv with h | h
      · subst h
        exact hgs _ (List.mem_cons_self _ _)
      · exact ih (fun kv2 hkv2 => hgs _ (List.mem_cons_of_mem _ hkv2)) kv h

/-- Every entry built by the grouping fold is sound. -/
theorem entryOK_foldl (paths : List (List Char)) :
    ∀ (l : List (List Char)) (gs : List ((List Char × List Char) × GEntry)),
      (∀ x ∈ l, x ∈ paths) → (∀ kv ∈ gs, entryOK paths kv) →
      ∀ kv ∈ l.foldl insertPath gs, entryOK paths kv := by
  intro l
  induction l with
  | nil =>
    intro gs _ hgs kv hkv
    simpa using hgs kv (by simpa using hkv)
  | cons x t ih =>
    intro gs hl hgs kv hkv
    rw [List.foldl_cons] at hkv
    exact ih (insertPath gs x) (fun y hy => hl y (List.mem_cons_of_mem _ hy))
      (entryOK_insertPath (hl x (List.mem_cons_self _ _)) gs hgs) kv hkv

/-- C9: every group returned by `parseTiffTfwPairs` pairs a `.tif`/`.tiff`
path from the input with a `.tfw` path from the input, from the same directory
and with the same extension-stripped base name, and the group's name is the
stem of its tif path.  Consequently a path with no such counterpart in the
input never produces a group: the group itself exhibits the counterpart. -/
theorem parseTiffTfwPairs_sound (paths : List (List Char)) (g : TiffTfwGroup)
    (hg : g ∈ parseTiffTfwPairs paths) :
    g.tifPath ∈ paths ∧ isTif g.tifPath = true ∧
    g.tfwPath ∈ paths ∧ isTfw g.tfwPath = true ∧
    dirOf g.tifPath = dirOf g.tfwPath ∧
    stem g.tifPath = stem g.tfwPath ∧
    g.name = stem g.tifPath := by
  unfold parseTiffTfwPairs at hg
  rcases List.mem_filterMap.mp hg with ⟨kv, hkv, hmk⟩
  have hok : entryOK paths kv := by
    unfold buildGroups at hkv
    exact entryOK_foldl paths paths [] (fun x hx => hx)
      (fun kv2 h => by cases h) kv hkv
  obtain ⟨k, e⟩ := kv
  rcases htif : e.tif with _ | tif
  · rw [htif] at hmk
    cases hmk
  · rcases htfw : e.tfw with _ | tfw
    · rw [htif, htfw] at hmk
      cases hmk
    · rw [htif, htfw] at hmk
      obtain ⟨hm1, hm2, hm3⟩ := hok.1 tif htif
      obtain ⟨hn1, hn2, hn3⟩ := hok.2 tfw htfw
      have hkey : keyOf tif = keyOf tfw := hm3.trans hn3.symm
      have hdir : dirOf tif = dirOf tfw := congrArg Prod.fst hkey
      have hstem : stem tif = stem tfw := congrArg Prod.snd hkey
      cases hmk
      exact ⟨hm1, hm2, hn1, hn2, hdir, hstem, rfl⟩

/-- C9 (witness): the soundness theorem at a concrete selection pairing
`C:/maps/UPE.tif` with `C:/maps/UPE.tfw`. -/
theorem parseTiffTfwPairs_sound_wit :
    pathTifEx ∈ pathsEx ∧ isTif pathTifEx = true ∧
    pathTfwEx ∈ pathsEx ∧ isTfw pathTfwEx = true ∧
    dirOf pathTifEx = dirOf pathTfwEx ∧
    stem pathTifEx = stem pathTfwEx ∧
    stem pathTifEx = stem pathTifEx :=
  parseTiffTfwPairs_sound pathsEx
    { name := stem pathTifEx, tifPath := pathTifEx, tfwPath := pathTfwEx }
    (by decide)

/-- Inserting an element that precedes all of `l` in the detection order
prepends it. -/
theorem orderedInsert_of_forall {x : Cand} :
    ∀ {l : List Cand}, (∀ y ∈ l, candLE x y) →
      List.orderedInsert candLE x l = x :: l := by
  intro l
  induction l with
  | nil => intro _; rfl
  | cons h tl _ =>
    intro hall
    rw [List.orderedInsert, if_pos (hall h (List.mem_cons_self _ _))]

/-- Filtering commutes with ordered insertion of an element passing the
filter, on a sorted list. -/
theorem filter_orderedInsert (q : Cand → Bool) {x : Cand} (hx : q x = true) :
    ∀ {l : List Cand}, List.Sorted candLE l →
      (List.orderedInsert candLE x l).filter q =
        List.orderedInsert candLE x (l.filter q) := by
  intro l
  induction l with
  | nil => intro _; simp [hx]
  | cons h tl ih =>
    intro hs
    rw [List.orderedInsert]
    by_cases hr : candLE x h
    · rw [if_pos hr]
      by_cases hqh : q h = true
      · simp only [List.filter_cons_of_pos hx, List.filter_cons_of_pos hqh,
          List.orderedInsert, if_pos hr]
      · simp only [List.filter_cons_of_pos hx,
          List.filter_cons_of_neg (by simpa using hqh)]
        refine (orderedInsert_of_forall ?_).symm
        intro y hy
        have hyt : y ∈ tl := List.mem_of_mem_filter hy
        exact IsTrans.trans x h y hr (List.rel_of_sorted_cons hs y hyt)
    · rw [if_neg hr]
      by_cases hqh : q h = true
      · simp only [List.filter_cons_of_pos hqh, ih hs.of_cons,
          List.orderedInsert, if_neg hr]
      · simp only [List.filter_cons_of_neg (by simpa using hqh), ih hs.of_cons]
/-- Ordered insertion of an element dropped by the filter leaves the filtered
list unchanged. -/
theorem filter_orderedInsert_neg (q : Cand → Bool) {x : Cand}
    (hx : q x = false) (l : List Cand) :
    (List.orderedInsert candLE x l).filter q = l.filter q := by
  rw [List.orderedInsert_eq_take_drop, List.filter_append,
    List.filter_cons_of_neg (by simp [hx]), ← List.filter_append,
    List.takeWhile_append_dropWhile]

/-- Insertion sort with the detection order commutes with filtering. -/
theorem insertionSort_filter (q : Cand → Bool) :
    ∀ l : List Cand,
      (List.insertionSort candLE l).filter q =
        List.insertionSort candLE (l.filter q) := by
  intro l
  induction l with
  | nil => rfl
  | cons x tl ih =>
    rw [List.insertionSort]
    by_cases hx : q x = true
    · rw [List.filter_cons_of_pos hx, List.insertionSort,
        filter_orderedInsert q hx (List.sorted_insertionSort candLE tl), ih]
    · rw [List.filter_cons_of_neg (by simpa using hx),
        filter_orderedInsert_neg q (by simpa using hx), ih]

/-- Raising the confidence threshold refines the surviving candidates by the
score-threshold filter. -/
theorem surviving_filter {t1 t2 : ℚ} (h : t1 ≤ t2) (tf : LetterboxTf)
    (raw : List Row) :
    surviving t2 tf raw = (surviving t1 tf raw).filter (scoreGE t2) := by
  unfold surviving
  rw [List.filter_comm]
  apply congrArg
  rw [List.filter_map]
  have hcomp : (scoreGE t2 ∘ decodeT tf) = scoreKeep t2 := by
    funext tr
    rfl
  rw [hcomp, List.filter_filter]
  apply congrArg
  apply List.filter_congr
  intro tr _
  unfold scoreKeep
  by_cases h2 : t2 ≤ maxScore tr.2
  · have h1 : t1 ≤ maxScore tr.2 := h.trans h2
    simp [h2, h1]
  · simp [h2]

/-- Per-class NMS commutes with the score-threshold filter. -/
theorem nmsClass_filter (thr : ℚ) (cl : ℕ) (t : ℚ) (l : List Cand) :
    nmsClass thr cl (l.filter (scoreGE t)) =
      (nmsClass thr cl l).filter (scoreGE t) := by
  unfold nmsClass
  rw [List.filter_comm, ← insertionSort_filter]
  have hsorted : List.Sorted candLE
      (List.insertionSort candLE (l.filter (isCls cl))) :=
    List.sorted_insertionSort candLE _
  obtain ⟨hft, hdrop⟩ := sorted_filter_takeWhile t hsorted
  rw [hft]
  conv_rhs =>
    rw [← List.takeWhile_append_dropWhile (scoreGE t)
      (List.insertionSort candLE (l.filter (isCls cl)))]
  rw [nmsAcc_append, List.filter_append]
  have h1 : (nmsAcc thr []
      ((List.insertionSort candLE (l.filter (isCls cl))).takeWhile
        (scoreGE t))).filter (scoreGE t) =
      nmsAcc thr []
        ((List.insertionSort candLE (l.filter (isCls cl))).takeWhile
          (scoreGE t)) := by
    apply List.filter_eq_self.mpr
    intro a ha
    exact List.mem_takeWhile_imp (List.Sublist.mem ha (nmsAcc_sublist thr _ _))
  have h2 : (nmsAcc thr
      (keptAfter thr []
        ((List.insertionSort candLE (l.filter (isCls cl))).takeWhile
          (scoreGE t)))
      ((List.insertionSort candLE (l.filter (isCls cl))).dropWhile
        (scoreGE t))).filter (scoreGE t) = [] := by
    apply List.filter_eq_nil_iff.mpr
    intro a ha
    simp [hdrop a (List.Sublist.mem ha (nmsAcc_sublist thr _ _))]
  rw [h1, h2, List.append_nil]

/-- NMS over all classes commutes with the score-threshold filter. -/
theorem nmsAll_filter (N : ℕ) (thr t : ℚ) (l : List Cand) :
    nmsAll N thr (l.filter (scoreGE t)) =
      (nmsAll N thr l).filter (scoreGE t) := by
  unfold nmsAll
  have hcong : (List.range N).flatMap
      (fun cl => nmsClass thr cl (l.filter (scoreGE t))) =
      (List.range N).flatMap (fun cl => (nmsClass thr cl l).filter (scoreGE t)) :=
    List.flatMap_congr (fun cl _ => nmsClass_filter thr cl t l)
  have hsplit : ∀ xs : List ℕ,
      (xs.flatMap (fun cl => nmsClass thr cl l)).filter (scoreGE t) =
        xs.flatMap (fun cl => (nmsClass thr cl l).filter (scoreGE t)) := by
    intro xs
    induction xs with
    | nil => rfl
    | cons c cs ih =>
      rw [List.flatMap_cons, List.flatMap_cons, List.filter_append, ih]
  rw [hcong, ← hsplit]

/-- C2: raising the confidence threshold only shrinks the Postprocessor
output: with identical raw output and all other parameters equal, every
detection returned at the higher threshold `t2` is also returned at the lower
threshold `t1` (monotonicity of score filtering through per-class NMS and the
global cap). -/
theorem postprocess_threshold_monotone (numClasses : ℕ) (tf : LetterboxTf)
    (raw : List Row) (iouThr : ℚ) (maxDet : ℕ) {t1 t2 : ℚ} (h12 : t1 < t2)
    {d : Cand} (hd : d ∈ postprocess numClasses tf raw t2 iouThr maxDet) :
    d ∈ postprocess numClasses tf raw t1 iouThr maxDet := by
  unfold postprocess at hd ⊢
  have hsp : List.Sorted candLE (List.insertionSort candLE
      (nmsAll numClasses iouThr (surviving t1 tf raw))) :=
    List.sorted_insertionSort candLE _
  rw [surviving_filter h12.le tf raw, nmsAll_filter, ← insertionSort_filter,
    (sorted_filter_takeWhile t2 hsp).1] at hd
  rw [← List.takeWhile_append_dropWhile (scoreGE t2)
    (List.insertionSort candLE (nmsAll numClasses iouThr
      (surviving t1 tf raw))), List.take_append_eq_append_take]
  exact List.mem_append_left _ hd

/-- C2 (witness): the detection surviving the higher threshold 17/20 on the
concrete raw output is in the output at the lower threshold 1/2. -/
theorem postprocess_threshold_monotone_wit :
    { idx := 0, cls := 0, score := (9 : ℚ) / 10,
      box := { x1 := 10, y1 := 10, x2 := 14, y2 := 14 } } ∈
      postprocess 1 tfId rawEx ((1 : ℚ) / 2) ((1 : ℚ) / 2) 10 :=
  postprocess_threshold_monotone 1 tfId rawEx ((1 : ℚ) / 2) 10
    (show (1 : ℚ) / 2 < 17 / 20 by norm_num)
    (of_decide_eq_true (by with_unfolding_all rfl))

/-- Every member of a per-class NMS output has that class. -/
theorem mem_nmsClass_cls {thr : ℚ} {cl : ℕ} {l : List Cand} {x : Cand}
    (hx : x ∈ nmsClass thr cl l) : x.cls = cl := by
  unfold nmsClass at hx
  have h1 : x ∈ List.insertionSort candLE (l.filter (isCls cl)) :=
    List.Sublist.mem hx (nmsAcc_sublist thr _ _)
  have h2 : x ∈ l.filter (isCls cl) :=
    (List.perm_insertionSort candLE _).mem_iff.mp h1
  have h3 := (List.mem_filter.mp h2).2
  unfold isCls at h3
  exact of_decide_eq_true h3

/-- C1: the Postprocessor never returns two detections of the same class whose
IoU exceeds the configured IoU threshold: per-class NMS keeps a box only when
its IoU with every previously kept box of that class is at most the threshold,
and the global sort and cap only reorder and remove detections. -/
theorem postprocess_no_same_class_overlap (numClasses : ℕ) (tf : LetterboxTf)
    (raw : List Row) (conf iouThr : ℚ) (maxDet : ℕ) (d1 d2 : Cand)
    (h1 : d1 ∈ postprocess numClasses tf raw conf iouThr maxDet)
    (h2 : d2 ∈ postprocess numClasses tf raw conf iouThr maxDet)
    (hcls : d1.cls = d2.cls) (hidx : d1.idx ≠ d2.idx) :
    iou d1.box d2.box ≤ iouThr := by
  unfold postprocess at h1 h2
  have m1 : d1 ∈ nmsAll numClasses iouThr (surviving conf tf raw) :=
    (List.perm_insertionSort candLE _).mem_iff.mp
      (List.Sublist.mem h1 (List.take_sublist _ _))
  have m2 : d2 ∈ nmsAll numClasses iouThr (surviving conf tf raw) :=
    (List.perm_insertionSort candLE _).mem_iff.mp
      (List.Sublist.mem h2 (List.take_sublist _ _))
  unfold nmsAll at m1 m2
  rcases List.mem_flatMap.mp m1 with ⟨cl1, _, hm1⟩
  rcases List.mem_flatMap.mp m2 with ⟨cl2, _, hm2⟩
  have e1 : d1.cls = cl1 := mem_nmsClass_cls hm1
  have e2 : d2.cls = cl2 := mem_nmsClass_cls hm2
  have ecl : cl1 = cl2 := by
    rw [← e1, ← e2]
    exact hcls
  subst ecl
  unfold nmsClass at hm1 hm2
  have hsym : Symmetric (fun a b : Cand => iou a.box b.box ≤ iouThr) := by
    intro a b hab
    show iou b.box a.box ≤ iouThr
    rw [iou_comm]
    exact hab
  have hne : d1 ≠ d2 := fun he => hidx (congrArg Cand.idx he)
  exact List.Pairwise.forall hsym (nmsAcc_pairwise iouThr _ []) hm1 hm2 hne

/-- C1 (witness): the no-overlap bound applied to the two same-class
detections of the concrete output. -/
theorem postprocess_no_same_class_overlap_wit :
    iou { x1 := 10, y1 := 10, x2 := 14, y2 := 14 }
      { x1 := 98, y1 := 98, x2 := 102, y2 := 102 } ≤ (1 : ℚ) / 2 :=
  postprocess_no_same_class_overlap 1 tfId rawEx ((1 : ℚ) / 2) ((1 : ℚ) / 2) 10
    { idx := 0, cls := 0, score := (9 : ℚ) / 10,
      box := { x1 := 10, y1 := 10, x2 := 14, y2 := 14 } }
    { idx := 1, cls := 0, score := (4 : ℚ) / 5,
      box := { x1 := 98, y1 := 98, x2 := 102, y2 := 102 } }
    (of_decide_eq_true (by with_unfolding_all rfl))
    (of_decide_eq_true (by with_unfolding_all rfl))
    rfl (by decide)

/-- C3: the Postprocessor output never exceeds the `max_det` cap, is ordered
by descending confidence with ties broken by input order, is the empty list
(an ordinary value, not a failure: the embedding is a total function) whenever
no row clears the confidence threshold, and a confidence threshold of 0 drops
no candidate in the score-filter step, every maximum score being at least 0. -/
theorem postprocess_cap_order_empty (numClasses : ℕ) (tf : LetterboxTf)
    (raw : List Row) (conf iouThr : ℚ) (maxDet : ℕ) (hmd : 0 < maxDet) :
    (postprocess numClasses tf raw conf iouThr maxDet).length ≤ maxDet ∧
    List.Sorted candLE (postprocess numClasses tf raw conf iouThr maxDet) ∧
    ((∀ r ∈ raw, maxScore r < conf) →
      postprocess numClasses tf raw conf iouThr maxDet = []) ∧
    surviving 0 tf raw = ((tagFrom 0 raw).map (decodeT tf)).filter areaPos := by
  refine ⟨List.length_take_le _ _, ?_, ?_, ?_⟩
  · exact List.Pairwise.sublist (List.take_sublist _ _)
      (List.sorted_insertionSort candLE _)
  · intro hall
    unfold postprocess
    have hsurv : surviving conf tf raw = [] := by
      unfold surviving
      have hfil : (tagFrom 0 raw).filter (scoreKeep conf) = [] := by
        apply List.filter_eq_nil_iff.mpr
        intro tr htr
        unfold scoreKeep
        simp only [decide_eq_true_eq, not_le]
        exact hall tr.2 (mem_tagFrom raw 0 tr htr)
      rw [hfil]
      rfl
    rw [hsurv]
    have hnil : nmsAll numClasses iouThr [] = [] :=
      List.flatMap_eq_nil_iff.mpr (fun cl _ => rfl)
    rw [hnil]
    exact List.take_nil
  · unfold surviving
    have hfil : (tagFrom 0 raw).filter (scoreKeep 0) = tagFrom 0 raw := by
      apply List.filter_eq_self.mpr
      intro tr _
      unfold scoreKeep
      simp [maxScore_nonneg]
    rw [hfil]

/-- C3 (witness): the cap and order at the concrete raw output. -/
theorem postprocess_cap_order_empty_wit :
    (postprocess 1 tfId rawEx ((1 : ℚ) / 2) ((1 : ℚ) / 2) 10).length ≤ 10 :=
  (postprocess_cap_order_empty 1 tfId rawEx ((1 : ℚ) / 2) ((1 : ℚ) / 2) 10
    (by decide)).1

end PalmAI
